import Mathlib

/-!
Verification of the arxiv-cli repository (src/main.rs, src/download.rs)
against its natural-language specification.

Rust strings are modelled as `List Char`; `String::len` (a byte count) is
modelled by `utf8Len`, the sum of the UTF-8 sizes of the characters.
Fallible operations return `Option`/`Except`; a Rust panic is modelled as
`none` (for the pure sanitizer) or as `RunErr.panicked` (inside the
download loop).
-/

namespace ArxivCli

/-- The Unicode `White_Space` characters, the set trimmed by Rust's
`str::trim` (which uses `char::is_whitespace`). -/
def rustWhitespace : List Char :=
  ['\t', '\n', '\x0b', '\x0c', '\r', ' ', '\u0085', ' ', ' ',
   ' ', ' ', ' ', ' ', ' ', ' ', ' ',
   ' ', ' ', ' ', ' ', ' ', ' ', ' ',
   ' ', '　']

def rustIsWhitespace (c : Char) : Bool :=
  rustWhitespace.contains c

/-- Model of Rust `str::trim`: drop leading and trailing whitespace. -/
def rustTrim (s : List Char) : List Char :=
  (s.dropWhile rustIsWhitespace).rdropWhile rustIsWhitespace

/-- Model of Rust `str::trim_end_matches('.')`: drop trailing dots. -/
def trimEndDots (s : List Char) : List Char :=
  s.rdropWhile (fun c => c = '.')

/-- Model of Rust `String::replace(ch, "_")` for a one-character pattern. -/
def replaceChar (ch : Char) (s : List Char) : List Char :=
  s.map (fun c => if c = ch then '_' else c)

/-- The invalid Windows filename characters of `sanitize_filename`
(src/download.rs line 9). -/
def invalid_chars : List Char :=
  ['<', '>', ':', '"', '/', '\\', '|', '?', '*']

/-- Byte length of a Rust `String` holding these characters
(`String::len` counts UTF-8 bytes). -/
def utf8Len (s : List Char) : Nat :=
  (s.map Char.utf8Size).sum

/-- Model of Rust `String::truncate n`: keep the first `n` bytes.
Returns `none` (a panic) when byte `n` falls inside the UTF-8 encoding of
a character, i.e. when `n` is not a character boundary; when `n` is at or
past the end of the string it is a no-op. -/
def truncateBytes : Nat → List Char → Option (List Char)
  | _, [] => some []
  | 0, _ :: _ => some []
  | n + 1, c :: cs =>
    if c.utf8Size ≤ n + 1 then
      (truncateBytes (n + 1 - c.utf8Size) cs).map (fun t => c :: t)
    else
      none

/-- Model of `sanitize_filename` (src/download.rs lines 7-21): replace each
invalid character by an underscore, trim whitespace, strip trailing dots,
and truncate to 200 bytes.  The result is `none` exactly when the
truncation panics (byte 200 inside a multi-byte character). -/
def sanitize_filename (name : List Char) : Option (List Char) :=
  let sanitized := invalid_chars.foldl (fun acc ch => replaceChar ch acc) name
  let sanitized := trimEndDots (rustTrim sanitized)
  if 200 < utf8Len sanitized then truncateBytes 200 sanitized else some sanitized

/-- The per-character effect of the nine successive `replace` calls. -/
def sanitizeChar (c : Char) : Char :=
  if invalid_chars.contains c then '_' else c

/-- Model of Rust `str::starts_with` on character lists. -/
def startsWith : List Char → List Char → Bool
  | [], _ => true
  | _ :: _, [] => false
  | q :: qs, c :: cs => q = c && startsWith qs cs

/-- Whether `p` occurs as a contiguous substring of `s`. -/
def containsSub (p : List Char) : List Char → Bool
  | [] => p.isEmpty
  | c :: rest => startsWith p (c :: rest) || containsSub p rest

/-- Model of Rust `str::replace` for a non-empty pattern: replace every
non-overlapping occurrence of `p`, scanning left to right, by `r`.
(The empty-pattern case never arises in this codebase; here it leaves the
string unchanged.) -/
def replaceAll (p r : List Char) : List Char → List Char
  | [] => []
  | c :: rest =>
    if h : p ≠ [] ∧ startsWith p (c :: rest) = true then
      r ++ replaceAll p r ((c :: rest).drop p.length)
    else
      c :: replaceAll p r rest
termination_by s => s.length
decreasing_by
  · simp only [List.length_drop, List.length_cons]
    have hp : 0 < p.length := List.length_pos.mpr h.1
    omega
  · simp only [List.length_cons]
    omega

/-- The record shape returned by the external arxiv crate
(`arxiv::Arxiv`). -/
structure Arxiv where
  id : List Char
  updated : List Char
  published : List Char
  title : List Char
  summary : List Char
  authors : List (List Char)
  primary_category : List Char
  categories : List (List Char)
  pdf_url : List Char
  html_url : List Char
  comment : Option (List Char)
deriving DecidableEq

/-- The persistable record of src/download.rs lines 27-41 (`SerDesArxiv`);
the `summary` field carries `#[serde(skip_serializing)]`. -/
structure SerDesArxiv where
  id : List Char
  updated : List Char
  published : List Char
  title : List Char
  summary : List Char
  authors : List (List Char)
  primary_category : List Char
  categories : List (List Char)
  pdf_url : List Char
  html_url : List Char
  comment : Option (List Char)
deriving DecidableEq

/-- Model of `SerDesArxiv::from_arxiv` (src/download.rs lines 44-58):
field-by-field copy, with `replace("httpss", "https")` applied to both
URLs. -/
def SerDesArxiv.from_arxiv (a : Arxiv) : SerDesArxiv where
  id := a.id
  updated := a.updated
  published := a.published
  title := a.title
  summary := a.summary
  authors := a.authors
  primary_category := a.primary_category
  categories := a.categories
  pdf_url := replaceAll (("httpss").data) (("https").data) a.pdf_url
  html_url := replaceAll (("httpss").data) (("https").data) a.html_url
  comment := a.comment

/-- Lowercase hexadecimal digit, as used by serde_json `\u00XX` escapes. -/
def hexDigit (n : Nat) : Char :=
  (("0123456789abcdef").data).getD n '0'

/-- serde_json escaping of one character inside a JSON string literal. -/
def escChar (c : Char) : List Char :=
  if c = '"' then ['\\', '"']
  else if c = '\\' then ['\\', '\\']
  else if c = '\x08' then ['\\', 'b']
  else if c = '\x0c' then ['\\', 'f']
  else if c = '\n' then ['\\', 'n']
  else if c = '\r' then ['\\', 'r']
  else if c = '\t' then ['\\', 't']
  else if c.toNat < 32 then
    ['\\', 'u', '0', '0', hexDigit (c.toNat / 16), hexDigit (c.toNat % 16)]
  else [c]

def escString (s : List Char) : List Char :=
  (s.map escChar).flatten

/-- A JSON string literal. -/
def jstr (s : List Char) : List Char :=
  '"' :: (escString s ++ ['"'])

/-- Concatenation with a separator between consecutive pieces. -/
def joinSep (sep : List Char) : List (List Char) → List Char
  | [] => []
  | [x] => x
  | x :: y :: rest => x ++ sep ++ joinSep sep (y :: rest)

/-- A JSON array of strings, as serde_json renders `Vec<String>`. -/
def jarr (l : List (List Char)) : List Char :=
  '[' :: (joinSep [','] (l.map jstr) ++ [']'])

/-- serde_json rendering of `Option<String>`: `null` or a string. -/
def jopt : Option (List Char) → List Char
  | none => ("null").data
  | some s => jstr s

/-- The serialized fields of a `SerDesArxiv`, in declaration order, as
produced by the serde `Serialize` derive: every field except `summary`,
which carries `#[serde(skip_serializing)]`. -/
def serializeFields (p : SerDesArxiv) : List (List Char × List Char) :=
  [ (("id").data, jstr p.id),
    (("updated").data, jstr p.updated),
    (("published").data, jstr p.published),
    (("title").data, jstr p.title),
    (("authors").data, jarr p.authors),
    (("primary_category").data, jstr p.primary_category),
    (("categories").data, jarr p.categories),
    (("pdf_url").data, jstr p.pdf_url),
    (("html_url").data, jstr p.html_url),
    (("comment").data, jopt p.comment) ]

/-- One `"key":value` member of the JSON object. -/
def renderKV (kv : List Char × List Char) : List Char :=
  '"' :: (kv.1 ++ ('"' :: ':' :: kv.2))

/-- Model of `serde_json::to_string` on a `SerDesArxiv`: the compact JSON
object over `serializeFields`. -/
def serialize (p : SerDesArxiv) : List Char :=
  '{' :: (joinSep [','] ((serializeFields p).map renderKV) ++ ['}'])

/-- Split a character list at every newline (the separators are consumed;
an empty input yields one empty chunk, like the splits of text lines). -/
def splitNl : List Char → List (List Char)
  | [] => [[]]
  | c :: rest =>
    if c = '\n' then [] :: splitNl rest
    else
      match splitNl rest with
      | [] => [[c]]
      | h :: t => (c :: h) :: t

/-- The non-empty lines of a character list. -/
def lines (s : List Char) : List (List Char) :=
  (splitNl s).filter (fun l => !l.isEmpty)

/-- The fixed output path constants of src/download.rs lines 23-25. -/
def JSON_FILE : List Char := ("metadata.jsonl").data

def PDF_DIRECTORY : List Char := ("pdfs/").data

def TEXT_DIRECTORY : List Char := ("texts/").data

/-- The observable side effects of a run, in chronological order. -/
inductive Event where
  | apiFetch (query : List Char) (limit : Int)
  | createDir (recIdx : Nat) (dir : List Char)
  | downloadPdf (recIdx : Nat) (url : List Char) (path : List Char)
  | writeSummaryFile (recIdx : Nat) (path : List Char) (content : List Char)
  | writeMetadataFile (path : List Char) (content : List Char)
deriving DecidableEq

/-- The index of the record whose loop iteration produced the event;
`none` for the initial API fetch and for the final metadata write. -/
def eventRecIdx : Event → Option Nat
  | Event.apiFetch _ _ => none
  | Event.createDir i _ => some i
  | Event.downloadPdf i _ _ => some i
  | Event.writeSummaryFile i _ _ => some i
  | Event.writeMetadataFile _ _ => none

/-- Outcome of a run: an I/O or network error value carried by `?`, or a
Rust panic (from `sanitize_filename`). -/
inductive RunErr where
  | err (e : Nat)
  | panicked
deriving DecidableEq

/-- Environment oracle for the fallible operations of one loop iteration:
each field is `some e` when the corresponding Rust `?` operation fails
with error `e`, and `none` when it succeeds. -/
structure RecEnv where
  metaErr : Option Nat
  pdfExistsErr : Option Nat
  createPdfDirErr : Option Nat
  fetchPdfErr : Option Nat
  txtExistsErr : Option Nat
  createTxtDirErr : Option Nat
  writeSumErr : Option Nat
deriving DecidableEq

/-- The mutable state of a run of `download_arxiv_papers`: the metadata
buffer `jsonl_text`, whether the two output directories exist, and the
side effects performed so far. -/
structure St where
  jsonl : List Char
  pdfDir : Bool
  txtDir : Bool
  events : List Event
deriving DecidableEq

/-- The external world: the result of the arxiv API call, the per-record
error oracles, the outcome of the final metadata write, and whether the
output directories exist initially. -/
structure Env where
  fetch : List Char → Int → Except Nat (List Arxiv)
  recEnv : Nat → RecEnv
  finalWriteErr : Option Nat
  pdfDir0 : Bool
  txtDir0 : Bool

/-- Model of `SerDesArxiv::fetch_pdf` (src/download.rs lines 60-70): on
success the PDF bytes are written to the path, with `.pdf` appended when
missing; any of its `?` failures is folded into one oracle. -/
def fetch_pdf (e? : Option Nat) (out_path : List Char) : Except Nat (List Char) :=
  match e? with
  | some e => Except.error e
  | none =>
    Except.ok (if ((".pdf").data).isSuffixOf out_path then out_path
      else out_path ++ (".pdf").data)

/-- Model of `SerDesArxiv::write_summary` (src/download.rs lines 85-94):
writes the raw summary to the path, with `.txt` appended when missing. -/
def write_summary (e? : Option Nat) (summary out_path : List Char) :
    Except Nat (List Char × List Char) :=
  match e? with
  | some e => Except.error e
  | none =>
    Except.ok ((if ((".txt").data).isSuffixOf out_path then out_path
      else out_path ++ (".txt").data), summary)

/-- The `save_metadata` branch of the loop body (src/download.rs lines
115-119): serialize the record and append one line to the buffer. -/
def metaStep (sm : Bool) (re : RecEnv) (paper : SerDesArxiv) (st : St) :
    St × Option RunErr :=
  if sm then
    match re.metaErr with
    | some e => (st, some (RunErr.err e))
    | none => ({ st with jsonl := st.jsonl ++ serialize paper ++ ['\n'] }, none)
  else (st, none)

/-- The sanitize-and-fetch tail of the `save_pdfs` branch. -/
def pdfFetchPart (re : RecEnv) (i : Nat) (paper : SerDesArxiv) (st : St) :
    St × Option RunErr :=
  match sanitize_filename paper.title with
  | none => (st, some RunErr.panicked)
  | some sanitized =>
    match fetch_pdf re.fetchPdfErr (PDF_DIRECTORY ++ '/' :: sanitized) with
    | Except.error e => (st, some (RunErr.err e))
    | Except.ok outPath =>
      ({ st with events := st.events ++ [Event.downloadPdf i paper.pdf_url outPath] },
        none)

/-- The `save_pdfs` branch of the loop body (src/download.rs lines
120-128): ensure `pdfs/` exists, then fetch the PDF. -/
def pdfStep (sp : Bool) (re : RecEnv) (i : Nat) (paper : SerDesArxiv) (st : St) :
    St × Option RunErr :=
  if sp then
    match re.pdfExistsErr with
    | some e => (st, some (RunErr.err e))
    | none =>
      if st.pdfDir then pdfFetchPart re i paper st
      else
        match re.createPdfDirErr with
        | some e => (st, some (RunErr.err e))
        | none =>
          pdfFetchPart re i paper
            { st with
              pdfDir := true
              events := st.events ++ [Event.createDir i PDF_DIRECTORY] }
  else (st, none)

/-- The sanitize-and-write tail of the `save_summaries` branch. -/
def sumWritePart (re : RecEnv) (i : Nat) (paper : SerDesArxiv) (st : St) :
    St × Option RunErr :=
  match sanitize_filename paper.title with
  | none => (st, some RunErr.panicked)
  | some sanitized =>
    match write_summary re.writeSumErr paper.summary
        (TEXT_DIRECTORY ++ '/' :: (sanitized ++ (".txt").data)) with
    | Except.error e => (st, some (RunErr.err e))
    | Except.ok out =>
      ({ st with events := st.events ++ [Event.writeSummaryFile i out.1 out.2] },
        none)

/-- The `save_summaries` branch of the loop body (src/download.rs lines
129-137): ensure `texts/` exists, then write the summary file. -/
def sumStep (ss : Bool) (re : RecEnv) (i : Nat) (paper : SerDesArxiv) (st : St) :
    St × Option RunErr :=
  if ss then
    match re.txtExistsErr with
    | some e => (st, some (RunErr.err e))
    | none =>
      if st.txtDir then sumWritePart re i paper st
      else
        match re.createTxtDirErr with
        | some e => (st, some (RunErr.err e))
        | none =>
          sumWritePart re i paper
            { st with
              txtDir := true
              events := st.events ++ [Event.createDir i TEXT_DIRECTORY] }
  else (st, none)

/-- Sequencing of fallible sub-steps: a `?` error aborts the iteration. -/
def bindStep (r : St × Option RunErr) (f : St → St × Option RunErr) :
    St × Option RunErr :=
  match r with
  | (st, some e) => (st, some e)
  | (st, none) => f st

/-- One iteration of the loop of `download_arxiv_papers` (src/download.rs
lines 113-138) on record `a` at index `i`. -/
def stepRecord (sm sp ss : Bool) (re : RecEnv) (i : Nat) (a : Arxiv) (st : St) :
    St × Option RunErr :=
  bindStep (metaStep sm re (SerDesArxiv.from_arxiv a) st) (fun st1 =>
    bindStep (pdfStep sp re i (SerDesArxiv.from_arxiv a) st1) (fun st2 =>
      sumStep ss re i (SerDesArxiv.from_arxiv a) st2))

/-- The record loop: process records in order, aborting at the first
error. -/
def loop (sm sp ss : Bool) (re : Nat → RecEnv) :
    Nat → List Arxiv → St → St × Option RunErr
  | _, [], st => (st, none)
  | i, a :: rest, st =>
    match stepRecord sm sp ss (re i) i a st with
    | (st1, some e) => (st1, some e)
    | (st1, none) => loop sm sp ss re (i + 1) rest st1

/-- The state at entry of the loop: empty buffer, initial directory
existence, and the API fetch already performed. -/
def initSt (env : Env) (q : List Char) (n : Int) : St :=
  { jsonl := [], pdfDir := env.pdfDir0, txtDir := env.txtDir0,
    events := [Event.apiFetch q n] }

/-- Model of `download_arxiv_papers` (src/download.rs lines 97-143): fetch
the records, run the loop, and afterwards write the whole metadata buffer
to `metadata.jsonl` in one operation — only when the buffer is
non-empty. -/
def download_arxiv_papers (env : Env) (search_query : List Char)
    (num_results : Int) (save_metadata save_pdfs save_summaries : Bool) :
    List Event × Option RunErr :=
  match env.fetch search_query num_results with
  | Except.error e => ([Event.apiFetch search_query num_results], some (RunErr.err e))
  | Except.ok arxivs =>
    match loop save_metadata save_pdfs save_summaries env.recEnv 0 arxivs
        (initSt env search_query num_results) with
    | (st, some e) => (st.events, some e)
    | (st, none) =>
      if st.jsonl.isEmpty then (st.events, none)
      else
        match env.finalWriteErr with
        | some e => (st.events, some (RunErr.err e))
        | none => (st.events ++ [Event.writeMetadataFile JSON_FILE st.jsonl], none)

/-- The metadata buffer accumulated over a successful run: one serialized
line plus newline per record. -/
def jsonlFor (recs : List Arxiv) : List Char :=
  (recs.map (fun a => serialize (SerDesArxiv.from_arxiv a) ++ ['\n'])).flatten

/-- No metadata-file write occurs in the event list. -/
def noMetaWrite (evs : List Event) : Prop :=
  ∀ p c, Event.writeMetadataFile p c ∉ evs

/-- The parsed CLI arguments of src/main.rs lines 11-35. -/
structure Args where
  category : Option (List Char)
  query : Option (List Char)
  limit : Int
  pdf : Bool
  summary : Bool
  no_metadata : Bool

/-- The query construction of src/main.rs lines 48-53. -/
def build_search_query : Option (List Char) → Option (List Char) → Option (List Char)
  | some cat, some q => some ((("cat:").data) ++ cat ++ ((" AND ").data) ++ q)
  | some cat, none => some ((("cat:").data) ++ cat)
  | none, some q => some q
  | none, none => none

/-- Model of `main` (src/main.rs lines 37-64): events performed and the
process exit code.  When neither category nor query is supplied the
process exits with code 1 before any network or filesystem operation;
otherwise a download error surfaces as a non-zero exit. -/
def main_run (env : Env) (args : Args) : List Event × Nat :=
  if args.category.isNone && args.query.isNone then ([], 1)
  else
    match build_search_query args.category args.query with
    | none => ([], 1)
    | some q =>
      match download_arxiv_papers env q args.limit
          (!args.no_metadata) args.pdf args.summary with
      | (evs, none) => (evs, 0)
      | (evs, some _) => (evs, 1)

/-- A concrete record used by the witnesses. -/
def sampleArxiv : Arxiv where
  id := ("1").data
  updated := ("u").data
  published := ("p").data
  title := ("t").data
  summary := ("s").data
  authors := []
  primary_category := ("cs").data
  categories := []
  pdf_url := ("httpss://x").data
  html_url := ("httpss://x").data
  comment := none

/-- A per-record oracle where every operation succeeds. -/
def sampleRecEnvOk : RecEnv :=
  ⟨none, none, none, none, none, none, none⟩

/-- A world where the API returns one record and everything succeeds. -/
def sampleEnvOk : Env where
  fetch := fun _ _ => Except.ok [sampleArxiv]
  recEnv := fun _ => sampleRecEnvOk
  finalWriteErr := none
  pdfDir0 := false
  txtDir0 := false

/-- A world with two records where the PDF fetch of the second record
(index 1) fails with error 7. -/
def sampleEnvFail : Env where
  fetch := fun _ _ => Except.ok [sampleArxiv, sampleArxiv]
  recEnv := fun i =>
    if i = 0 then sampleRecEnvOk else { sampleRecEnvOk with fetchPdfErr := some 7 }
  finalWriteErr := none
  pdfDir0 := false
  txtDir0 := false

/-- CLI arguments with neither category nor query. -/
def sampleArgsNone : Args :=
  ⟨none, none, 5, false, false, false⟩

theorem foldl_replace_cons (L : List Char) (c : Char) (s : List Char) :
    L.foldl (fun acc ch => replaceChar ch acc) (c :: s)
      = (L.foldl (fun d ch => if d = ch then '_' else d) c)
        :: L.foldl (fun acc ch => replaceChar ch acc) s := by
  induction L generalizing c s with
  | nil => rfl
  | cons x xs ih =>
    simp only [List.foldl_cons]
    rw [replaceChar]
    simp only [List.map_cons]
    exact ih _ _

theorem foldl_replace_nil (L : List Char) :
    L.foldl (fun acc ch => replaceChar ch acc) [] = [] := by
  induction L with
  | nil => rfl
  | cons x xs ih => simp only [List.foldl_cons, replaceChar, List.map_nil]; exact ih

theorem char_fold_eq_sanitizeChar (c : Char) :
    invalid_chars.foldl (fun d ch => if d = ch then '_' else d) c = sanitizeChar c := by
  by_cases h1 : c = '<'
  · subst h1; decide
  by_cases h2 : c = '>'
  · subst h2; decide
  by_cases h3 : c = ':'
  · subst h3; decide
  by_cases h4 : c = '"'
  · subst h4; decide
  by_cases h5 : c = '/'
  · subst h5; decide
  by_cases h6 : c = '\\'
  · subst h6; decide
  by_cases h7 : c = '|'
  · subst h7; decide
  by_cases h8 : c = '?'
  · subst h8; decide
  by_cases h9 : c = '*'
  · subst h9; decide
  have hc : invalid_chars.contains c = false := by
    simp [invalid_chars, List.contains_eq_any_beq, h1, h2, h3, h4, h5, h6, h7, h8, h9]
  simp [invalid_chars, List.foldl_cons, List.foldl_nil, sanitizeChar, hc,
    h1, h2, h3, h4, h5, h6, h7, h8, h9]

theorem foldl_replace_eq_map (name : List Char) :
    invalid_chars.foldl (fun acc ch => replaceChar ch acc) name
      = name.map sanitizeChar := by
  induction name with
  | nil => exact foldl_replace_nil _
  | cons c s ih =>
    rw [foldl_replace_cons, char_fold_eq_sanitizeChar, List.map_cons, ih]

theorem sanitizeChar_not_invalid (c : Char) :
    invalid_chars.contains (sanitizeChar c) = false := by
  unfold sanitizeChar
  cases hb : invalid_chars.contains c
  · simp only [hb, Bool.false_eq_true, if_false]
  · simp only [hb, if_true]
    decide

theorem truncateBytes_isPrefix {n : Nat} {l r : List Char}
    (h : truncateBytes n l = some r) : r <+: l := by
  induction l generalizing n r with
  | nil =>
    cases n <;> simp_all [truncateBytes]
  | cons c cs ih =>
    cases n with
    | zero =>
      simp only [truncateBytes, Option.some.injEq] at h
      subst h
      exact List.nil_prefix
    | succ m =>
      simp only [truncateBytes] at h
      split at h
      · simp only [Option.map_eq_some'] at h
        obtain ⟨t, ht, rfl⟩ := h
        obtain ⟨u, hu⟩ := ih ht
        exact ⟨u, by rw [List.cons_append, hu]⟩
      · exact absurd h (by simp)

theorem truncateBytes_utf8Len {n : Nat} {l r : List Char}
    (h : truncateBytes n l = some r) : utf8Len r ≤ n := by
  induction l generalizing n r with
  | nil =>
    cases n <;> simp_all [truncateBytes, utf8Len]
  | cons c cs ih =>
    cases n with
    | zero =>
      simp only [truncateBytes, Option.some.injEq] at h
      subst h
      simp [utf8Len]
    | succ m =>
      simp only [truncateBytes] at h
      split at h
      · rename_i hle
        simp only [Option.map_eq_some'] at h
        obtain ⟨t, ht, rfl⟩ := h
        have hih := ih ht
        simp only [utf8Len, List.map_cons, List.sum_cons] at hih ⊢
        omega
      · exact absurd h (by simp)

theorem length_le_utf8Len (l : List Char) : l.length ≤ utf8Len l := by
  induction l with
  | nil => simp [utf8Len]
  | cons c cs ih =>
    have hc : 1 ≤ c.utf8Size := Char.utf8Size_pos c
    simp only [utf8Len, List.map_cons, List.sum_cons, List.length_cons]
    simp only [utf8Len] at ih
    omega

theorem dropWhile_head_false {p : Char → Bool} {l : List Char} {c : Char}
    {t : List Char} (h : l.dropWhile p = c :: t) : p c = false := by
  induction l with
  | nil => simp [List.dropWhile] at h
  | cons x xs ih =>
    rw [List.dropWhile_cons] at h
    split at h
    · exact ih h
    · rename_i hx
      cases h
      simpa using hx

/-- A successful sanitizer result is a prefix of the trimmed, dot-stripped,
character-replaced title. -/
theorem sanitize_some_isPrefix {name r : List Char}
    (h : sanitize_filename name = some r) :
    r <+: trimEndDots (rustTrim (name.map sanitizeChar)) := by
  simp only [sanitize_filename, foldl_replace_eq_map] at h
  split at h
  · exact truncateBytes_isPrefix h
  · simp only [Option.some.injEq] at h
    subst h
    exact List.prefix_refl _

theorem sanitize_some_sublist {name r : List Char}
    (h : sanitize_filename name = some r) :
    r.Sublist (name.map sanitizeChar) := by
  have h1 := (sanitize_some_isPrefix h).sublist
  have h2 : (trimEndDots (rustTrim (name.map sanitizeChar))).Sublist
      (rustTrim (name.map sanitizeChar)) :=
    ( List.rdropWhile_prefix _ _).sublist
  have h3 : (rustTrim (name.map sanitizeChar)).Sublist
      ((name.map sanitizeChar).dropWhile rustIsWhitespace) :=
    ( List.rdropWhile_prefix _ _).sublist
  have h4 : ((name.map sanitizeChar).dropWhile rustIsWhitespace).Sublist
      (name.map sanitizeChar) :=
    (List.dropWhile_suffix _).sublist
  exact ((h1.trans h2).trans h3).trans h4

set_option maxRecDepth 40000 in
/-- C3 fails on the code: `trim_end_matches('.')` runs after `trim`, so
stripping trailing dots can expose trailing whitespace; and the final
200-byte truncation can re-expose a trailing dot. -/
theorem sanitize_trailing_cex :
    (sanitize_filename (("a .").data)).map (fun r => r.getLast?) = some (some ' ')
      ∧ rustIsWhitespace ' ' = true
      ∧ (sanitize_filename (List.replicate 198 'a' ++ (" .b").data)).map
          (fun r => r.getLast?) = some (some '.') := by
  decide

/-- C3 (amended): the sanitizer output never begins with a whitespace
character; trailing whitespace can remain when trailing dots are stripped
after trimming, and the final truncation can leave a trailing dot or
whitespace character. -/
theorem sanitize_no_leading_whitespace (name r : List Char) (c : Char)
    (h : sanitize_filename name = some r) (hc : r.head? = some c) :
    rustIsWhitespace c = false := by
  cases r with
  | nil => simp at hc
  | cons c0 t =>
    have hc0 : c0 = c := by simpa using hc
    rw [← hc0]
    have hpre := sanitize_some_isPrefix h
    have hpre2 : (c0 :: t) <+: rustTrim (name.map sanitizeChar) :=
      hpre.trans ( List.rdropWhile_prefix _ _)
    have hpre3 : (c0 :: t) <+: (name.map sanitizeChar).dropWhile rustIsWhitespace :=
      hpre2.trans ( List.rdropWhile_prefix _ _)
    obtain ⟨u, hu⟩ := hpre3
    exact dropWhile_head_false (t := t ++ u) (by rw [← hu, List.cons_append])

/-- Witness for the amended C3 at the concrete title consisting of a space
followed by the letter a. -/
theorem sanitize_no_leading_whitespace_witness : rustIsWhitespace 'a' = false :=
  sanitize_no_leading_whitespace ((" a").data) (('a') :: []) 'a'
    (by decide) (by decide)

/-- C4: for every title longer than 200 characters, a returned sanitizer
output has length at most 200 characters. -/
theorem sanitize_length_le_200 (name r : List Char)
    (hlen : 200 < name.length) (h : sanitize_filename name = some r) :
    r.length ≤ 200 := by
  simp only [sanitize_filename, foldl_replace_eq_map] at h
  split at h
  · have h1 := truncateBytes_utf8Len h
    have h2 := length_le_utf8Len r
    omega
  · rename_i hle
    simp only [Option.some.injEq] at h
    subst h
    have h2 := length_le_utf8Len (trimEndDots (rustTrim (name.map sanitizeChar)))
    omega

set_option maxRecDepth 40000 in
/-- Witness for C4 at a title of 201 letters a. -/
theorem sanitize_length_le_200_witness : (List.replicate 200 'a').length ≤ 200 :=
  sanitize_length_le_200 (List.replicate 201 'a') (List.replicate 200 'a')
    (by decide) (by decide)

/-- C5: for every title containing a reserved character, a returned
sanitizer output contains none of the reserved characters. -/
theorem sanitize_no_invalid_chars (name r : List Char)
    (hinv : ∃ c ∈ name, invalid_chars.contains c = true)
    (h : sanitize_filename name = some r) :
    ∀ c ∈ r, invalid_chars.contains c = false := by
  intro c hcr
  have hmem : c ∈ name.map sanitizeChar := (sanitize_some_sublist h).subset hcr
  obtain ⟨c0, _, rfl⟩ := List.mem_map.mp hmem
  exact sanitizeChar_not_invalid c0

/-- Witness for C5 at the concrete title a<b, whose sanitized form a_b
contains the replacement underscore. -/
theorem sanitize_no_invalid_chars_witness :
    invalid_chars.contains '_' = false :=
  sanitize_no_invalid_chars (("a<b").data) (("a_b").data)
    (by decide) (by decide) '_' (by decide)

theorem startsWith_self_append (p t : List Char) :
    startsWith p (p ++ t) = true := by
  induction p with
  | nil => rfl
  | cons q qs ih => simp [startsWith, ih]

theorem startsWith_cons_ne {q c : Char} (qs s : List Char) (hne : q ≠ c) :
    startsWith (q :: qs) (c :: s) = false := by
  simp [startsWith, hne]

theorem replaceAll_of_not_contains {p r s : List Char}
    (h : containsSub p s = false) : replaceAll p r s = s := by
  induction s with
  | nil => simp [replaceAll]
  | cons c rest ih =>
    simp only [containsSub, Bool.or_eq_false_iff] at h
    rw [replaceAll, dif_neg (by simp [h.1]), ih h.2]

theorem replaceAll_append_head {p : List Char} (r : List Char)
    (rest : List Char) (hp : p ≠ []) :
    replaceAll p r (p ++ rest) = r ++ replaceAll p r rest := by
  cases p with
  | nil => exact absurd rfl hp
  | cons q qs =>
    rw [List.cons_append, replaceAll,
      dif_pos ⟨by simp, by rw [← List.cons_append]; exact startsWith_self_append _ _⟩]
    congr 1
    rw [← List.cons_append, List.drop_left]

theorem containsSub_colon_slashes {rest : List Char}
    (h : containsSub (("httpss").data) rest = false) :
    containsSub (("httpss").data) ((("://").data) ++ rest) = false := by
  have h1 : (("://").data) ++ rest = ':' :: '/' :: '/' :: rest := by
    rw [show (("://").data) = [':', '/', '/'] from rfl]
    rfl
  rw [h1, show (("httpss").data) = ['h', 't', 't', 'p', 's', 's'] from rfl]
  rw [show (("httpss").data) = ['h', 't', 't', 'p', 's', 's'] from rfl] at h
  simp [containsSub, startsWith, h]

theorem replaceAll_httpss (rest : List Char)
    (h : containsSub (("httpss").data) rest = false) :
    replaceAll (("httpss").data) (("https").data) ((("httpss://").data) ++ rest)
      = (("https://").data) ++ rest := by
  have hsplit : (("httpss://").data) ++ rest
      = (("httpss").data) ++ ((("://").data) ++ rest) := by
    rw [← List.append_assoc]
    rfl
  rw [hsplit, replaceAll_append_head _ _ (by decide),
    replaceAll_of_not_contains (containsSub_colon_slashes h), ← List.append_assoc]
  rfl

set_option maxRecDepth 40000 in
/-- C10 fails on the code: `sanitize_filename` is not total.  Rust's
`String::truncate(200)` panics when byte 200 is not a character boundary;
a title of 199 ASCII letters followed by one two-byte character reaches
that panic (modelled here as `none`). -/
theorem sanitize_panics_at_boundary :
    sanitize_filename (List.replicate 199 'a' ++ ['é']) = none := by
  decide

theorem splitNl_append_newline {x : List Char} (hx : ('\n') ∉ x) (r : List Char) :
    splitNl (x ++ ('\n') :: r) = x :: splitNl r := by
  induction x with
  | nil => simp [splitNl]
  | cons c cs ih =>
    have hc : c ≠ '\n' := fun hh => hx (by simp [hh])
    have hx' : ('\n') ∉ cs := fun hm => hx (List.mem_cons_of_mem _ hm)
    rw [List.cons_append, splitNl, if_neg hc, ih hx']

theorem lines_flatten {L : List (List Char)}
    (hL : ∀ x ∈ L, x ≠ [] ∧ ('\n') ∉ x) :
    lines ((L.map (fun x => x ++ ['\n'])).flatten) = L := by
  induction L with
  | nil => rfl
  | cons x L2 ih =>
    have hx := hL x (List.mem_cons_self _ _)
    have hL2 : ∀ y ∈ L2, y ≠ [] ∧ ('\n') ∉ y :=
      fun y hy => hL y (List.mem_cons_of_mem _ hy)
    have hne : (!x.isEmpty) = true := by
      cases x with
      | nil => exact absurd rfl hx.1
      | cons a b => rfl
    show lines ((x ++ ['\n']) ++ (L2.map (fun y => y ++ ['\n'])).flatten) = x :: L2
    rw [List.append_assoc, List.singleton_append, lines,
      splitNl_append_newline hx.2, List.filter_cons, if_pos hne]
    exact congrArg (x :: ·) (ih hL2)

theorem mem_joinSep {c : Char} {sep : List Char} {l : List (List Char)}
    (h : c ∈ joinSep sep l) : c ∈ sep ∨ ∃ x ∈ l, c ∈ x := by
  induction l with
  | nil => simp [joinSep] at h
  | cons x rest ih =>
    cases rest with
    | nil =>
      exact Or.inr ⟨x, List.mem_cons_self _ _, h⟩
    | cons y t =>
      simp only [joinSep, List.append_assoc, List.mem_append] at h
      rcases h with hx | hsep | hrec
      · exact Or.inr ⟨x, List.mem_cons_self _ _, hx⟩
      · exact Or.inl hsep
      · rcases ih hrec with hs | ⟨z, hz, hcz⟩
        · exact Or.inl hs
        · exact Or.inr ⟨z, List.mem_cons_of_mem _ hz, hcz⟩

theorem hexDigit_ne_nl (n : Nat) : hexDigit n ≠ '\n' := by
  unfold hexDigit
  rcases Nat.lt_or_ge n ((("0123456789abcdef").data).length) with h | h
  · have hmem : (("0123456789abcdef").data).getD n '0' ∈ (("0123456789abcdef").data) := by
      rw [List.getD_eq_getElem _ _ h]
      exact List.getElem_mem _
    intro hh
    rw [hh] at hmem
    revert hmem
    decide
  · rw [List.getD_eq_default _ _ h]
    decide

theorem escChar_no_nl (c : Char) : ('\n') ∉ escChar c := by
  unfold escChar
  split_ifs with h1 h2 h3 h4 h5 h6 h7 h8
  · decide
  · decide
  · decide
  · decide
  · decide
  · decide
  · decide
  · intro hmem
    simp only [List.mem_cons, List.not_mem_nil, or_false] at hmem
    rcases hmem with hh | hh | hh | hh | hh | hh
    · revert hh; decide
    · revert hh; decide
    · revert hh; decide
    · revert hh; decide
    · exact hexDigit_ne_nl _ hh.symm
    · exact hexDigit_ne_nl _ hh.symm
  · intro hmem
    simp only [List.mem_singleton] at hmem
    exact h5 hmem.symm

theorem escString_no_nl (s : List Char) : ('\n') ∉ escString s := by
  intro hmem
  rcases List.mem_flatten.mp hmem with ⟨x, hx, hcx⟩
  rcases List.mem_map.mp hx with ⟨c0, _, rfl⟩
  exact escChar_no_nl c0 hcx

theorem jstr_no_nl (s : List Char) : ('\n') ∉ jstr s := by
  intro hmem
  rcases List.mem_cons.mp hmem with hh | hmem2
  · revert hh; decide
  rcases List.mem_append.mp hmem2 with hh | hh
  · exact escString_no_nl s hh
  · revert hh; decide

theorem jarr_no_nl (l : List (List Char)) : ('\n') ∉ jarr l := by
  intro hmem
  rcases List.mem_cons.mp hmem with hh | hmem2
  · revert hh; decide
  rcases List.mem_append.mp hmem2 with hh | hh
  · rcases mem_joinSep hh with hs | ⟨x, hx, hcx⟩
    · revert hs; decide
    · rcases List.mem_map.mp hx with ⟨s0, _, rfl⟩
      exact jstr_no_nl s0 hcx
  · revert hh; decide

theorem jopt_no_nl (o : Option (List Char)) : ('\n') ∉ jopt o := by
  cases o with
  | none => decide
  | some s => exact jstr_no_nl s

theorem renderKV_no_nl {k v : List Char} (hk : ('\n') ∉ k)
    (hv : ('\n') ∉ v) : ('\n') ∉ renderKV (k, v) := by
  intro hmem
  rcases List.mem_cons.mp hmem with hh | hmem2
  · revert hh; decide
  rcases List.mem_append.mp hmem2 with hh | hmem3
  · exact hk hh
  rcases List.mem_cons.mp hmem3 with hh | hmem4
  · revert hh; decide
  rcases List.mem_cons.mp hmem4 with hh | hh
  · revert hh; decide
  · exact hv hh

theorem serialize_no_nl (p : SerDesArxiv) : ('\n') ∉ serialize p := by
  intro hmem
  rcases List.mem_cons.mp hmem with hh | hmem2
  · revert hh; decide
  rcases List.mem_append.mp hmem2 with hh | hh
  · rcases mem_joinSep hh with hs | ⟨x, hx, hcx⟩
    · revert hs; decide
    · rcases List.mem_map.mp hx with ⟨kv, hkv, rfl⟩
      simp only [serializeFields, List.mem_cons, List.not_mem_nil, or_false] at hkv
      rcases hkv with rfl | rfl | rfl | rfl | rfl | rfl | rfl | rfl | rfl | rfl
      · exact renderKV_no_nl (by decide) (jstr_no_nl _) hcx
      · exact renderKV_no_nl (by decide) (jstr_no_nl _) hcx
      · exact renderKV_no_nl (by decide) (jstr_no_nl _) hcx
      · exact renderKV_no_nl (by decide) (jstr_no_nl _) hcx
      · exact renderKV_no_nl (by decide) (jarr_no_nl _) hcx
      · exact renderKV_no_nl (by decide) (jstr_no_nl _) hcx
      · exact renderKV_no_nl (by decide) (jarr_no_nl _) hcx
      · exact renderKV_no_nl (by decide) (jstr_no_nl _) hcx
      · exact renderKV_no_nl (by decide) (jstr_no_nl _) hcx
      · exact renderKV_no_nl (by decide) (jopt_no_nl _) hcx
  · revert hh; decide

theorem serialize_ne_nil (p : SerDesArxiv) : serialize p ≠ [] := by
  simp [serialize]

/-- The non-empty lines of the metadata buffer are exactly the serialized
records, in order. -/
theorem lines_jsonlFor (recs : List Arxiv) :
    lines (jsonlFor recs) = recs.map (fun a => serialize (SerDesArxiv.from_arxiv a)) := by
  unfold jsonlFor
  rw [show (recs.map (fun a => serialize (SerDesArxiv.from_arxiv a) ++ ['\n']))
      = ((recs.map (fun a => serialize (SerDesArxiv.from_arxiv a))).map
          (fun x => x ++ ['\n'])) by rw [List.map_map]; rfl]
  exact lines_flatten (fun x hx => by
    rcases List.mem_map.mp hx with ⟨a, _, rfl⟩
    exact ⟨serialize_ne_nil _, serialize_no_nl _⟩)

theorem metaStep_spec (sm : Bool) (re : RecEnv) (paper : SerDesArxiv) (st : St) :
    ((metaStep sm re paper st).1.events = st.events)
      ∧ ((metaStep sm re paper st).1.pdfDir = st.pdfDir)
      ∧ ((metaStep sm re paper st).1.txtDir = st.txtDir)
      ∧ ((metaStep sm re paper st).2 = none →
          (metaStep sm re paper st).1.jsonl
            = st.jsonl ++ (if sm then serialize paper ++ ['\n'] else []))
      ∧ (sm = false → metaStep sm re paper st = (st, none)) := by
  cases sm with
  | false => simp [metaStep]
  | true =>
    cases hm : re.metaErr with
    | some e => simp [metaStep, hm]
    | none => simp [metaStep, hm]

theorem pdfFetchPart_spec (re : RecEnv) (i : Nat) (paper : SerDesArxiv) (st : St) :
    ((pdfFetchPart re i paper st).1.jsonl = st.jsonl)
      ∧ ((pdfFetchPart re i paper st).1.pdfDir = st.pdfDir)
      ∧ ((pdfFetchPart re i paper st).1.txtDir = st.txtDir)
      ∧ ∃ new, (pdfFetchPart re i paper st).1.events = st.events ++ new
          ∧ ∀ ev ∈ new, eventRecIdx ev = some i := by
  unfold pdfFetchPart
  split
  · exact ⟨rfl, rfl, rfl, [], by simp, by simp⟩
  · split
    · exact ⟨rfl, rfl, rfl, [], by simp, by simp⟩
    · rename_i sanitized hs outPath hf
      refine ⟨rfl, rfl, rfl, [Event.downloadPdf i paper.pdf_url outPath], rfl, ?_⟩
      intro ev hev
      rcases List.mem_singleton.mp hev with rfl
      rfl

theorem pdfStep_spec (sp : Bool) (re : RecEnv) (i : Nat) (paper : SerDesArxiv) (st : St) :
    ((pdfStep sp re i paper st).1.jsonl = st.jsonl)
      ∧ ((pdfStep sp re i paper st).1.txtDir = st.txtDir)
      ∧ ∃ new, (pdfStep sp re i paper st).1.events = st.events ++ new
          ∧ ∀ ev ∈ new, eventRecIdx ev = some i := by
  cases sp with
  | false => exact ⟨rfl, rfl, [], by simp [pdfStep], by simp⟩
  | true =>
    unfold pdfStep
    simp only [if_true]
    split
    · exact ⟨rfl, rfl, [], by simp, by simp⟩
    · split
      · obtain ⟨h1, h2, h3, new1, hev, hidx⟩ := pdfFetchPart_spec re i paper st
        exact ⟨h1, h3, new1, hev, hidx⟩
      · split
        · exact ⟨rfl, rfl, [], by simp, by simp⟩
        · obtain ⟨h1, h2, h3, new1, hev, hidx⟩ :=
            pdfFetchPart_spec re i paper
              { st with
                pdfDir := true
                events := st.events ++ [Event.createDir i PDF_DIRECTORY] }
          refine ⟨h1, h3, Event.createDir i PDF_DIRECTORY :: new1, ?_, ?_⟩
          · rw [hev]
            simp
          · intro ev hevm
            rcases List.mem_cons.mp hevm with rfl | hin
            · rfl
            · exact hidx ev hin

theorem sumWritePart_spec (re : RecEnv) (i : Nat) (paper : SerDesArxiv) (st : St) :
    ((sumWritePart re i paper st).1.jsonl = st.jsonl)
      ∧ ((sumWritePart re i paper st).1.pdfDir = st.pdfDir)
      ∧ ((sumWritePart re i paper st).1.txtDir = st.txtDir)
      ∧ ∃ new, (sumWritePart re i paper st).1.events = st.events ++ new
          ∧ ∀ ev ∈ new, eventRecIdx ev = some i := by
  unfold sumWritePart
  split
  · exact ⟨rfl, rfl, rfl, [], by simp, by simp⟩
  · split
    · exact ⟨rfl, rfl, rfl, [], by simp, by simp⟩
    · rename_i sanitized hs out hf
      refine ⟨rfl, rfl, rfl, [Event.writeSummaryFile i out.1 out.2], rfl, ?_⟩
      intro ev hev
      rcases List.mem_singleton.mp hev with rfl
      rfl

theorem sumStep_spec (ss : Bool) (re : RecEnv) (i : Nat) (paper : SerDesArxiv) (st : St) :
    ((sumStep ss re i paper st).1.jsonl = st.jsonl)
      ∧ ((sumStep ss re i paper st).1.pdfDir = st.pdfDir)
      ∧ ∃ new, (sumStep ss re i paper st).1.events = st.events ++ new
          ∧ ∀ ev ∈ new, eventRecIdx ev = some i := by
  cases ss with
  | false => exact ⟨rfl, rfl, [], by simp [sumStep], by simp⟩
  | true =>
    unfold sumStep
    simp only [if_true]
    split
    · exact ⟨rfl, rfl, [], by simp, by simp⟩
    · split
      · obtain ⟨h1, h2, h3, new1, hev, hidx⟩ := sumWritePart_spec re i paper st
        exact ⟨h1, h2, new1, hev, hidx⟩
      · split
        · exact ⟨rfl, rfl, [], by simp, by simp⟩
        · obtain ⟨h1, h2, h3, new1, hev, hidx⟩ :=
            sumWritePart_spec re i paper
              { st with
                txtDir := true
                events := st.events ++ [Event.createDir i TEXT_DIRECTORY] }
          refine ⟨h1, h2, Event.createDir i TEXT_DIRECTORY :: new1, ?_, ?_⟩
          · rw [hev]
            simp
          · intro ev hevm
            rcases List.mem_cons.mp hevm with rfl | hin
            · rfl
            · exact hidx ev hin

theorem stepRecord_spec (sm sp ss : Bool) (re : RecEnv) (i : Nat) (a : Arxiv) (st : St) :
    (∃ new, (stepRecord sm sp ss re i a st).1.events = st.events ++ new
        ∧ ∀ ev ∈ new, eventRecIdx ev = some i)
      ∧ ((stepRecord sm sp ss re i a st).2 = none →
          (stepRecord sm sp ss re i a st).1.jsonl
            = st.jsonl
              ++ (if sm then serialize (SerDesArxiv.from_arxiv a) ++ ['\n'] else []))
      ∧ (sm = false → (stepRecord sm sp ss re i a st).1.jsonl = st.jsonl) := by
  have hsr : stepRecord sm sp ss re i a st
      = bindStep (metaStep sm re (SerDesArxiv.from_arxiv a) st) (fun st1 =>
          bindStep (pdfStep sp re i (SerDesArxiv.from_arxiv a) st1) (fun st2 =>
            sumStep ss re i (SerDesArxiv.from_arxiv a) st2)) := rfl
  obtain ⟨hm1, hm2, hm3, hm4, hm5⟩ := metaStep_spec sm re (SerDesArxiv.from_arxiv a) st
  rcases hm : metaStep sm re (SerDesArxiv.from_arxiv a) st with ⟨st1, e1⟩
  rw [hm] at hsr hm1 hm2 hm3 hm4 hm5
  dsimp only at hm1 hm2 hm3 hm4 hm5
  cases e1 with
  | some e =>
    have hres : stepRecord sm sp ss re i a st = (st1, some e) := hsr
    rw [hres]
    refine ⟨⟨[], by simp [hm1], by simp⟩, by simp, ?_⟩
    intro hsm
    have h5 := hm5 hsm
    simp only [Prod.mk.injEq] at h5
    exact absurd h5.2 (by simp)
  | none =>
    have hjson1 : st1.jsonl
        = st.jsonl ++ (if sm then serialize (SerDesArxiv.from_arxiv a) ++ ['\n'] else []) :=
      hm4 rfl
    have hjson1f : sm = false → st1.jsonl = st.jsonl := by
      intro hsm
      have h5 := hm5 hsm
      simp only [Prod.mk.injEq] at h5
      rw [← h5.1]
    simp only [bindStep] at hsr
    obtain ⟨hp1, hp2, newp, hpev, hpidx⟩ := pdfStep_spec sp re i (SerDesArxiv.from_arxiv a) st1
    rcases hp : pdfStep sp re i (SerDesArxiv.from_arxiv a) st1 with ⟨st2, e2⟩
    rw [hp] at hsr hp1 hp2 hpev
    dsimp only at hp1 hp2 hpev
    cases e2 with
    | some e =>
      have hres : stepRecord sm sp ss re i a st = (st2, some e) := by
        rw [hsr]
      rw [hres]
      refine ⟨⟨newp, by rw [hpev, hm1], hpidx⟩, by simp, ?_⟩
      intro hsm
      rw [hp1, hjson1f hsm]
    | none =>
      obtain ⟨hs1, hs2, news, hsev, hsidx⟩ := sumStep_spec ss re i (SerDesArxiv.from_arxiv a) st2
      have hres : stepRecord sm sp ss re i a st
          = sumStep ss re i (SerDesArxiv.from_arxiv a) st2 := by
        rw [hsr]
      rw [hres]
      refine ⟨⟨newp ++ news, ?_, ?_⟩, ?_, ?_⟩
      · rw [hsev, hpev, hm1, List.append_assoc]
      · intro ev hev
        rcases List.mem_append.mp hev with hin | hin
        · exact hpidx ev hin
        · exact hsidx ev hin
      · intro hnone
        rw [hs1, hp1, hjson1]
      · intro hsm
        rw [hs1, hp1, hjson1f hsm]

theorem loop_nil_eq (sm sp ss : Bool) (re : Nat → RecEnv) (i : Nat) (st : St) :
    loop sm sp ss re i [] st = (st, none) := rfl

theorem loop_cons_eq (sm sp ss : Bool) (re : Nat → RecEnv) (i : Nat) (a : Arxiv)
    (rest : List Arxiv) (st : St) :
    loop sm sp ss re i (a :: rest) st
      = match stepRecord sm sp ss (re i) i a st with
        | (st1, some e) => (st1, some e)
        | (st1, none) => loop sm sp ss re (i + 1) rest st1 := rfl

theorem loop_append (sm sp ss : Bool) (re : Nat → RecEnv) (l1 l2 : List Arxiv) :
    ∀ (i : Nat) (st : St),
    loop sm sp ss re i (l1 ++ l2) st
      = match loop sm sp ss re i l1 st with
        | (st1, none) => loop sm sp ss re (i + l1.length) l2 st1
        | (st1, some e) => (st1, some e) := by
  induction l1 with
  | nil =>
    intro i st
    simp [loop]
  | cons a rest ih =>
    intro i st
    rw [List.cons_append, loop_cons_eq, loop_cons_eq]
    cases hs : stepRecord sm sp ss (re i) i a st with
    | mk st1 e1 =>
      cases e1 with
      | some e => rfl
      | none =>
        dsimp only
        rw [ih]
        have hlen : i + 1 + rest.length = i + (a :: rest).length := by
          simp only [List.length_cons]
          omega
        rw [hlen]

theorem loop_events (sm sp ss : Bool) (re : Nat → RecEnv) :
    ∀ (l : List Arxiv) (i : Nat) (st : St),
    ∃ new, (loop sm sp ss re i l st).1.events = st.events ++ new
      ∧ ∀ ev ∈ new, ∃ j, eventRecIdx ev = some j ∧ i ≤ j ∧ j < i + l.length := by
  intro l
  induction l with
  | nil =>
    intro i st
    exact ⟨[], by simp [loop], by simp⟩
  | cons a rest ih =>
    intro i st
    obtain ⟨new1, hev1, hidx1⟩ := (stepRecord_spec sm sp ss (re i) i a st).1
    rw [loop_cons_eq]
    rcases hs : stepRecord sm sp ss (re i) i a st with ⟨st1, e1⟩
    rw [hs] at hev1
    dsimp only at hev1
    cases e1 with
    | some e =>
      refine ⟨new1, hev1, ?_⟩
      intro ev hev
      refine ⟨i, hidx1 ev hev, Nat.le_refl i, ?_⟩
      simp only [List.length_cons]
      omega
    | none =>
      obtain ⟨new2, hev2, hidx2⟩ := ih (i + 1) st1
      refine ⟨new1 ++ new2, ?_, ?_⟩
      · rw [hev2, hev1, List.append_assoc]
      · intro ev hev
        rcases List.mem_append.mp hev with hin | hin
        · refine ⟨i, hidx1 ev hin, Nat.le_refl i, ?_⟩
          simp only [List.length_cons]
          omega
        · obtain ⟨j, hj1, hj2, hj3⟩ := hidx2 ev hin
          refine ⟨j, hj1, by omega, ?_⟩
          simp only [List.length_cons]
          omega

theorem loop_jsonl (sm sp ss : Bool) (re : Nat → RecEnv) :
    ∀ (l : List Arxiv) (i : Nat) (st : St),
    (loop sm sp ss re i l st).2 = none →
    (loop sm sp ss re i l st).1.jsonl
      = st.jsonl ++ (if sm then jsonlFor l else []) := by
  intro l
  induction l with
  | nil =>
    intro i st h
    simp [loop, jsonlFor]
  | cons a rest ih =>
    intro i st h
    obtain ⟨_, hjs, _⟩ := stepRecord_spec sm sp ss (re i) i a st
    rw [loop_cons_eq] at h ⊢
    rcases hs : stepRecord sm sp ss (re i) i a st with ⟨st1, e1⟩
    rw [hs] at hjs h
    dsimp only at hjs
    cases e1 with
    | some e =>
      dsimp only at h
      exact absurd h (by simp)
    | none =>
      dsimp only at h ⊢
      have hst1 : st1.jsonl
          = st.jsonl ++ (if sm then serialize (SerDesArxiv.from_arxiv a) ++ ['\n'] else []) :=
        hjs rfl
      rw [ih (i + 1) st1 h, hst1]
      cases sm with
      | false => simp
      | true =>
        simp only [if_true, List.append_assoc]
        have : jsonlFor (a :: rest)
            = serialize (SerDesArxiv.from_arxiv a) ++ ['\n'] ++ jsonlFor rest := by
          simp [jsonlFor]
        rw [this, List.append_assoc]

theorem loop_jsonl_smfalse (sp ss : Bool) (re : Nat → RecEnv) :
    ∀ (l : List Arxiv) (i : Nat) (st : St),
    (loop false sp ss re i l st).1.jsonl = st.jsonl := by
  intro l
  induction l with
  | nil =>
    intro i st
    simp [loop]
  | cons a rest ih =>
    intro i st
    obtain ⟨_, _, hjf⟩ := stepRecord_spec false sp ss (re i) i a st
    rw [loop_cons_eq]
    rcases hs : stepRecord false sp ss (re i) i a st with ⟨st1, e1⟩
    rw [hs] at hjf
    dsimp only at hjf
    have hst1 : st1.jsonl = st.jsonl := hjf rfl
    cases e1 with
    | some e => exact hst1
    | none =>
      dsimp only
      rw [ih (i + 1) st1, hst1]

theorem jsonlFor_ne_nil {recs : List Arxiv} (h : recs ≠ []) : jsonlFor recs ≠ [] := by
  cases recs with
  | nil => exact absurd rfl h
  | cons a t => simp [jsonlFor]

theorem noMetaWrite_of_init_append {q : List Char} {n : Int} {new : List Event}
    (hidx : ∀ ev ∈ new, ∃ j, eventRecIdx ev = some j) :
    noMetaWrite ([Event.apiFetch q n] ++ new) := by
  intro p c hmem
  rcases List.mem_append.mp hmem with hin | hin
  · simp at hin
  · obtain ⟨j, hj⟩ := hidx _ hin
    simp [eventRecIdx] at hj

/-- C1: with metadata saving enabled and at least one fetched record, a
successful run writes the metadata file exactly once, after the loop, and
its content holds exactly one non-empty line per record, each line the
JSON serialization of one record; with metadata saving disabled, or with
zero fetched records, no metadata file is ever written. -/
theorem metadata_file_write_spec (env : Env) (q : List Char) (n : Int)
    (sm sp ss : Bool) :
    (sm = false → noMetaWrite (download_arxiv_papers env q n sm sp ss).1)
      ∧ ∀ recs, env.fetch q n = Except.ok recs →
          ((recs = [] → noMetaWrite (download_arxiv_papers env q n sm sp ss).1)
          ∧ (sm = true → recs ≠ [] →
              (download_arxiv_papers env q n sm sp ss).2 = none →
              download_arxiv_papers env q n sm sp ss
                = ((loop sm sp ss env.recEnv 0 recs (initSt env q n)).1.events
                    ++ [Event.writeMetadataFile JSON_FILE (jsonlFor recs)], none)
              ∧ noMetaWrite
                  (loop sm sp ss env.recEnv 0 recs (initSt env q n)).1.events
              ∧ lines (jsonlFor recs)
                  = recs.map (fun a => serialize (SerDesArxiv.from_arxiv a))
              ∧ (recs.map (fun a => serialize (SerDesArxiv.from_arxiv a))).length
                  = recs.length
              ∧ ∀ l ∈ recs.map (fun a => serialize (SerDesArxiv.from_arxiv a)),
                  l ≠ [])) := by
  constructor
  · intro hsm
    subst hsm
    unfold download_arxiv_papers
    cases hf : env.fetch q n with
    | error e =>
      intro p c hmem
      simp at hmem
    | ok recs =>
      dsimp only
      obtain ⟨new, hev, hidx⟩ := loop_events false sp ss env.recEnv recs 0 (initSt env q n)
      have hjs := loop_jsonl_smfalse sp ss env.recEnv recs 0 (initSt env q n)
      rcases hl : loop false sp ss env.recEnv 0 recs (initSt env q n) with ⟨st, e?⟩
      rw [hl] at hev hjs
      dsimp only at hev hjs
      have hstev : noMetaWrite st.events := by
        rw [hev]
        exact noMetaWrite_of_init_append (fun ev hin => ⟨(hidx ev hin).choose,
          (hidx ev hin).choose_spec.1⟩)
      cases e? with
      | some e =>
        dsimp only
        exact hstev
      | none =>
        dsimp only
        have hje : st.jsonl.isEmpty = true := by
          rw [hjs]
          rfl
        rw [if_pos hje]
        exact hstev
  · intro recs hf
    constructor
    · intro hrecs
      subst hrecs
      unfold download_arxiv_papers
      rw [hf]
      intro p c hmem
      simp [loop, initSt] at hmem
    · intro hsm hne h2
      subst hsm
      unfold download_arxiv_papers at h2 ⊢
      rw [hf] at h2 ⊢
      dsimp only at h2 ⊢
      obtain ⟨new, hev, hidx⟩ := loop_events true sp ss env.recEnv recs 0 (initSt env q n)
      have hjs := loop_jsonl true sp ss env.recEnv recs 0 (initSt env q n)
      rcases hl : loop true sp ss env.recEnv 0 recs (initSt env q n) with ⟨st, e?⟩
      rw [hl] at h2 hev hjs
      dsimp only at hev hjs
      have hstev : noMetaWrite st.events := by
        rw [hev]
        exact noMetaWrite_of_init_append (fun ev hin => ⟨(hidx ev hin).choose,
          (hidx ev hin).choose_spec.1⟩)
      cases e? with
      | some e =>
        dsimp only at h2
        exact absurd h2 (by simp)
      | none =>
        dsimp only at h2 ⊢
        have hstj : st.jsonl = jsonlFor recs := by
          have hh := hjs rfl
          rw [hh]
          simp [initSt]
        have hje : st.jsonl.isEmpty = false := by
          rw [hstj]
          exact List.isEmpty_eq_false.mpr (jsonlFor_ne_nil hne)
        rw [if_neg (by rw [hje]; simp)] at h2 ⊢
        cases hwf : env.finalWriteErr with
        | some e =>
          rw [hwf] at h2
          dsimp only at h2
          exact absurd h2 (by simp)
        | none =>
          dsimp only
          refine ⟨by rw [hstj], hstev, lines_jsonlFor recs, by simp, ?_⟩
          intro l hml
          rcases List.mem_map.mp hml with ⟨a, _, rfl⟩
          exact serialize_ne_nil _

/-- Witness for C1: a concrete successful one-record run with metadata
enabled. -/
theorem metadata_file_write_spec_witness :
    download_arxiv_papers sampleEnvOk (("q").data) 5 true false false
        = ((loop true false false sampleEnvOk.recEnv 0 [sampleArxiv]
              (initSt sampleEnvOk (("q").data) 5)).1.events
            ++ [Event.writeMetadataFile JSON_FILE (jsonlFor [sampleArxiv])], none)
      ∧ noMetaWrite (loop true false false sampleEnvOk.recEnv 0 [sampleArxiv]
          (initSt sampleEnvOk (("q").data) 5)).1.events
      ∧ lines (jsonlFor [sampleArxiv])
          = [sampleArxiv].map (fun a => serialize (SerDesArxiv.from_arxiv a))
      ∧ ([sampleArxiv].map (fun a => serialize (SerDesArxiv.from_arxiv a))).length
          = [sampleArxiv].length
      ∧ ∀ l ∈ [sampleArxiv].map (fun a => serialize (SerDesArxiv.from_arxiv a)),
          l ≠ [] :=
  (((metadata_file_write_spec sampleEnvOk (("q").data) 5 true false false).2
      [sampleArxiv] rfl).2) rfl (by simp) (by decide)

/-- C2: when records before index `i` are processed without error and an
I/O or network error `e` occurs while processing record `i`, the whole run
aborts immediately returning that error: the run's events are exactly
those performed up to and including record `i` (every record event has
index at most `i`) and the metadata file is never written. -/
theorem error_aborts_run (env : Env) (q : List Char) (n : Int)
    (sm sp ss : Bool) (recs : List Arxiv) (i : Nat) (a : Arxiv) (e : RunErr)
    (hf : env.fetch q n = Except.ok recs)
    (ha : recs[i]? = some a)
    (hok : (loop sm sp ss env.recEnv 0 (recs.take i) (initSt env q n)).2 = none)
    (herr : (stepRecord sm sp ss (env.recEnv i) i a
        ((loop sm sp ss env.recEnv 0 (recs.take i) (initSt env q n)).1)).2
      = some e) :
    download_arxiv_papers env q n sm sp ss
        = ((stepRecord sm sp ss (env.recEnv i) i a
              ((loop sm sp ss env.recEnv 0 (recs.take i) (initSt env q n)).1)).1.events,
           some e)
      ∧ noMetaWrite (download_arxiv_papers env q n sm sp ss).1
      ∧ ∀ ev ∈ (download_arxiv_papers env q n sm sp ss).1, ∀ j,
          eventRecIdx ev = some j → j ≤ i := by
  have hilt : i < recs.length := (List.getElem?_eq_some.mp ha).1
  have hgot : recs.drop i = a :: recs.drop (i + 1) := by
    rw [List.drop_eq_getElem_cons hilt]
    rw [(List.getElem?_eq_some.mp ha).2]
  have hsplit : recs.take i ++ a :: recs.drop (i + 1) = recs := by
    rw [← hgot]
    exact List.take_append_drop i recs
  have hlen : (recs.take i).length = i := by
    rw [List.length_take]
    omega
  have hloopTake : loop sm sp ss env.recEnv 0 (recs.take i) (initSt env q n)
      = ((loop sm sp ss env.recEnv 0 (recs.take i) (initSt env q n)).1, none) := by
    rw [← hok]
  have hstep : stepRecord sm sp ss (env.recEnv i) i a
        ((loop sm sp ss env.recEnv 0 (recs.take i) (initSt env q n)).1)
      = ((stepRecord sm sp ss (env.recEnv i) i a
          ((loop sm sp ss env.recEnv 0 (recs.take i) (initSt env q n)).1)).1,
         some e) := by
    rw [← herr]
  have hfull : loop sm sp ss env.recEnv 0 recs (initSt env q n)
      = ((stepRecord sm sp ss (env.recEnv i) i a
          ((loop sm sp ss env.recEnv 0 (recs.take i) (initSt env q n)).1)).1,
         some e) := by
    conv_lhs => rw [← hsplit]
    rw [loop_append, hloopTake]
    dsimp only
    rw [Nat.zero_add, hlen, loop_cons_eq, hstep]
  have hdl : download_arxiv_papers env q n sm sp ss
      = ((stepRecord sm sp ss (env.recEnv i) i a
          ((loop sm sp ss env.recEnv 0 (recs.take i) (initSt env q n)).1)).1.events,
         some e) := by
    unfold download_arxiv_papers
    rw [hf]
    dsimp only
    rw [hfull]
  refine ⟨hdl, ?_, ?_⟩
  all_goals rw [hdl]
  all_goals obtain ⟨newi, hevi, hidxi⟩ :=
    (stepRecord_spec sm sp ss (env.recEnv i) i a
      ((loop sm sp ss env.recEnv 0 (recs.take i) (initSt env q n)).1)).1
  all_goals obtain ⟨newt, hevt, hidxt⟩ :=
    loop_events sm sp ss env.recEnv (recs.take i) 0 (initSt env q n)
  · intro p c hmem
    dsimp only at hmem
    rw [hevi, hevt, List.append_assoc] at hmem
    exact noMetaWrite_of_init_append (fun ev hin => by
      rcases List.mem_append.mp hin with hin2 | hin2
      · exact ⟨(hidxt ev hin2).choose, (hidxt ev hin2).choose_spec.1⟩
      · exact ⟨i, hidxi ev hin2⟩) p c hmem
  · intro ev hmem j hj
    dsimp only at hmem
    rw [hevi, hevt, List.append_assoc] at hmem
    rcases List.mem_append.mp hmem with hin | hin
    · rcases List.mem_singleton.mp hin with rfl
      simp [eventRecIdx] at hj
    · rcases List.mem_append.mp hin with hin2 | hin2
      · obtain ⟨j2, hj2, hj3, hj4⟩ := hidxt ev hin2
        rw [hj] at hj2
        simp only [Option.some.injEq] at hj2
        omega
      · have hsome := hidxi ev hin2
        rw [hj] at hsome
        simp only [Option.some.injEq] at hsome
        omega

/-- Witness for C2: a two-record run with PDF saving on where the PDF
fetch of record 1 fails with error 7. -/
theorem error_aborts_run_witness :
    download_arxiv_papers sampleEnvFail (("q").data) 5 false true false
        = ((stepRecord false true false (sampleEnvFail.recEnv 1) 1 sampleArxiv
              ((loop false true false sampleEnvFail.recEnv 0
                ([sampleArxiv, sampleArxiv].take 1)
                (initSt sampleEnvFail (("q").data) 5)).1)).1.events,
           some (RunErr.err 7))
      ∧ noMetaWrite (download_arxiv_papers sampleEnvFail (("q").data) 5 false true false).1
      ∧ ∀ ev ∈ (download_arxiv_papers sampleEnvFail (("q").data) 5 false true false).1,
          ∀ j, eventRecIdx ev = some j → j ≤ 1 :=
  error_aborts_run sampleEnvFail (("q").data) 5 false true false
    [sampleArxiv, sampleArxiv] 1 sampleArxiv (RunErr.err 7)
    rfl (by decide) (by decide) (by decide)

/-- C6: the query builder of main produces exactly `cat:<category> AND
<query>` when both are present, `cat:<category>` for a category alone, and
the query unchanged for a query alone. -/
theorem search_query_cases (cat q : List Char) :
    build_search_query (some cat) (some q)
        = some ((("cat:").data) ++ cat ++ ((" AND ").data) ++ q)
      ∧ build_search_query (some cat) none = some ((("cat:").data) ++ cat)
      ∧ build_search_query none (some q) = some q :=
  ⟨rfl, rfl, rfl⟩

/-- C7: converting a fetched record for storage rewrites the httpss
protocol defect in both URLs: each stored URL is the `replace` of the
fetched one, and a URL of the form `httpss://rest` (with no further
occurrence of the defect) is stored as `https://rest`. -/
theorem url_defect_normalized (a : Arxiv) :
    ((SerDesArxiv.from_arxiv a).pdf_url
        = replaceAll (("httpss").data) (("https").data) a.pdf_url)
      ∧ ((SerDesArxiv.from_arxiv a).html_url
          = replaceAll (("httpss").data) (("https").data) a.html_url)
      ∧ ∀ rest, containsSub (("httpss").data) rest = false →
          (a.pdf_url = (("httpss://").data) ++ rest →
            (SerDesArxiv.from_arxiv a).pdf_url = (("https://").data) ++ rest)
          ∧ (a.html_url = (("httpss://").data) ++ rest →
            (SerDesArxiv.from_arxiv a).html_url = (("https://").data) ++ rest) := by
  refine ⟨rfl, rfl, fun rest hrest => ⟨fun hp => ?_, fun hh => ?_⟩⟩
  · show replaceAll (("httpss").data) (("https").data) a.pdf_url = _
    rw [hp]
    exact replaceAll_httpss rest hrest
  · show replaceAll (("httpss").data) (("https").data) a.html_url = _
    rw [hh]
    exact replaceAll_httpss rest hrest

/-- Witness for C7 at a concrete record whose URLs are `httpss://x`. -/
theorem url_defect_normalized_witness :
    (SerDesArxiv.from_arxiv sampleArxiv).pdf_url
      = (("https://").data) ++ (("x").data) :=
  ((url_defect_normalized sampleArxiv).2.2 (("x").data) (by decide)).1 (by decide)

/-- C8: a serialized record consists of exactly the fields id, updated,
published, title, authors, primary_category, categories, pdf_url,
html_url, comment — and never a summary key. -/
theorem serialize_fields_exact (p : SerDesArxiv) :
    ((serializeFields p).map Prod.fst
        = [("id").data, ("updated").data, ("published").data, ("title").data,
           ("authors").data, ("primary_category").data, ("categories").data,
           ("pdf_url").data, ("html_url").data, ("comment").data])
      ∧ (("summary").data ∉ (serializeFields p).map Prod.fst) := by
  have hk : (serializeFields p).map Prod.fst
      = [("id").data, ("updated").data, ("published").data, ("title").data,
         ("authors").data, ("primary_category").data, ("categories").data,
         ("pdf_url").data, ("html_url").data, ("comment").data] := rfl
  refine ⟨hk, ?_⟩
  rw [hk]
  decide

/-- C9: when neither a category nor a query is supplied, main exits with
code 1 — a non-zero exit — having performed no network or filesystem
event at all. -/
theorem usage_error_no_io (env : Env) (args : Args)
    (hc : args.category = none) (hq : args.query = none) :
    main_run env args = ([], 1) ∧ (1 : Nat) ≠ 0 := by
  constructor
  · simp [main_run, hc, hq]
  · decide

/-- Witness for C9 at concrete empty CLI arguments. -/
theorem usage_error_no_io_witness :
    main_run sampleEnvOk sampleArgsNone = ([], 1) ∧ (1 : Nat) ≠ 0 :=
  usage_error_no_io sampleEnvOk sampleArgsNone rfl rfl

end ArxivCli
